import Mathlib

/-!
Verification of the tergite-backend pulse-instruction compiler.

This file gives a shallow embedding, over exact rational arithmetic, of the
pulse compiler of the repository: grid alignment and instruction decoding
(`app/libs/quantum_executor/quantify/instruction.py`), channel state queries
(the per-channel phase / frequency / acquisition bookkeeping), schedule
assembly (`app/libs/quantum_executor/base/experiment.py`), instruction
equality (`app/libs/quantum_executor/base/instruction/types.py`), the
executor result shaping (`app/libs/quantum_executor/qiskit/executor.py`),
and the backported binary-search helpers
(`app/libs/quantum_executor/utils/general.py`).

Python floats are modelled as exact rationals; Python dicts keyed by strings
are modelled as association lists; a raised exception is modelled as the
`Except.error` branch of a total function.
-/

namespace Tergite

/-! ### Grid alignment

Embedding of `_map_to_qblox_timegrid` (quantify/instruction.py, lines
689-708) and the module constant `QBLOX_TIMEGRID_INTERVAL` (line 30).
Python's `%` on a positive divisor is floor-modulo; `pyFloorMod` is that
operation on exact rationals. -/

def QBLOX_TIMEGRID_INTERVAL : ℚ := 4 / 10 ^ 9

/-- Python `a % m`: floor modulo, `a - m * ⌊a / m⌋`. -/
def pyFloorMod (a m : ℚ) : ℚ := a - m * ⌊a / m⌋

/-- Embedding of `_map_to_qblox_timegrid(raw_time, grid_interval)`:
`time_to_next_gridline = (grid_interval - raw_time) % grid_interval;
return raw_time + time_to_next_gridline`. -/
def mapToQbloxTimegrid (rawTime gridInterval : ℚ) : ℚ :=
  rawTime + pyFloorMod (gridInterval - rawTime) gridInterval

theorem pyFloorMod_eq_fract {a m : ℚ} (hm : m ≠ 0) :
    pyFloorMod a m = m * Int.fract (a / m) := by
  unfold pyFloorMod Int.fract
  field_simp

theorem pyFloorMod_nonneg {a m : ℚ} (hm : 0 < m) : 0 ≤ pyFloorMod a m := by
  have h := Int.fract_nonneg (a / m)
  rw [pyFloorMod_eq_fract (ne_of_gt hm)]
  positivity

theorem pyFloorMod_lt {a m : ℚ} (hm : 0 < m) : pyFloorMod a m < m := by
  have h := Int.fract_lt_one (a / m)
  rw [pyFloorMod_eq_fract (ne_of_gt hm)]
  calc m * Int.fract (a / m) < m * 1 := by
        exact mul_lt_mul_of_pos_left h hm
    _ = m := mul_one m

/-- The aligned value is the grid multiple `g * (1 - ⌊(g - t)/g⌋)`. -/
theorem mapToQbloxTimegrid_eq_mul (t g : ℚ) (hg : g ≠ 0) :
    mapToQbloxTimegrid t g = g * (1 - ⌊(g - t) / g⌋) := by
  unfold mapToQbloxTimegrid pyFloorMod
  push_cast
  ring

theorem mapToQbloxTimegrid_grid_multiple (t g : ℚ) (hg : g ≠ 0) :
    ∃ k : ℤ, mapToQbloxTimegrid t g = g * k := by
  exact ⟨1 - ⌊(g - t) / g⌋, by rw [mapToQbloxTimegrid_eq_mul t g hg]; push_cast; ring⟩

theorem mapToQbloxTimegrid_le (t g : ℚ) (hg : 0 < g) :
    t ≤ mapToQbloxTimegrid t g := by
  have h := pyFloorMod_nonneg (a := g - t) hg
  unfold mapToQbloxTimegrid
  linarith

theorem mapToQbloxTimegrid_sub_lt (t g : ℚ) (hg : 0 < g) :
    mapToQbloxTimegrid t g - t < g := by
  have h := pyFloorMod_lt (a := g - t) hg
  unfold mapToQbloxTimegrid
  linarith

theorem mapToQbloxTimegrid_of_multiple (k : ℤ) (g : ℚ) (hg : g ≠ 0) :
    mapToQbloxTimegrid (g * k) g = g * k := by
  rw [mapToQbloxTimegrid_eq_mul _ _ hg]
  have hdiv : (g - g * k) / g = ((1 - k : ℤ) : ℚ) := by
    push_cast
    field_simp
    ring
  rw [hdiv, Int.floor_intCast]
  push_cast
  ring

theorem mapToQbloxTimegrid_idem (t g : ℚ) (hg : g ≠ 0) :
    mapToQbloxTimegrid (mapToQbloxTimegrid t g) g = mapToQbloxTimegrid t g := by
  obtain ⟨k, hk⟩ := mapToQbloxTimegrid_grid_multiple t g hg
  rw [hk, mapToQbloxTimegrid_of_multiple k g hg]

/-- C4: For every non-negative raw time `t` and positive grid interval `g`,
grid alignment returns `t' = t + ((g − t) mod g)`, and this satisfies
`t' ≥ t`, `t' − t < g`, idempotence, `align(0, g) = 0`, and `t'` is a
non-negative integer multiple of the grid interval. -/
theorem grid_alignment_contract (t g : ℚ) (ht : 0 ≤ t) (hg : 0 < g) :
    mapToQbloxTimegrid t g = t + pyFloorMod (g - t) g ∧
    t ≤ mapToQbloxTimegrid t g ∧
    mapToQbloxTimegrid t g - t < g ∧
    mapToQbloxTimegrid (mapToQbloxTimegrid t g) g = mapToQbloxTimegrid t g ∧
    mapToQbloxTimegrid 0 g = 0 ∧
    0 ≤ mapToQbloxTimegrid t g ∧
    ∃ k : ℤ, mapToQbloxTimegrid t g = g * k := by
  have hg0 : g ≠ 0 := ne_of_gt hg
  refine ⟨rfl, mapToQbloxTimegrid_le t g hg, mapToQbloxTimegrid_sub_lt t g hg,
    mapToQbloxTimegrid_idem t g hg0, ?_, ?_, mapToQbloxTimegrid_grid_multiple t g hg0⟩
  · have := mapToQbloxTimegrid_of_multiple 0 g hg0
    simpa using this
  · exact le_trans ht (mapToQbloxTimegrid_le t g hg)

/-- Witness for C4 at `t = 3`, `g = 4`. -/
theorem grid_alignment_contract_witness :
    (0 : ℚ) ≤ 3 ∧ (0 : ℚ) < 4 ∧
      (mapToQbloxTimegrid 3 4 = 3 + pyFloorMod (4 - 3) 4 ∧
       (3 : ℚ) ≤ mapToQbloxTimegrid 3 4 ∧
       mapToQbloxTimegrid 3 4 - 3 < 4 ∧
       mapToQbloxTimegrid (mapToQbloxTimegrid 3 4) 4 = mapToQbloxTimegrid 3 4 ∧
       mapToQbloxTimegrid 0 4 = 0 ∧
       (0 : ℚ) ≤ mapToQbloxTimegrid 3 4 ∧
       ∃ k : ℤ, mapToQbloxTimegrid 3 4 = 4 * k) :=
  ⟨by norm_num, by norm_num, grid_alignment_contract 3 4 (by norm_num) (by norm_num)⟩

/-- C5 counterexample: at raw time `−5` with grid `4`, `_map_to_qblox_timegrid`
raises nothing and returns the value `−4`: the floor-modulo behaviour on a
negative operand is silently inherited, contradicting the claim that a
negative raw time is a hard error. The source function (quantify/instruction.py,
lines 689-708) is total and has no error path at all. -/
theorem grid_alignment_negative_counterexample :
    mapToQbloxTimegrid (-5) 4 = -4 := by
  unfold mapToQbloxTimegrid pyFloorMod
  norm_num

/-- C5 amended: for a negative raw time `t` with positive grid `g`, grid
alignment raises no error; it silently returns the least grid multiple
`≥ t` (possibly negative), i.e. the same ceiling behaviour as for
non-negative inputs, inherited from floor modulo. -/
theorem grid_alignment_negative_silent (t g : ℚ) (ht : t < 0) (hg : 0 < g) :
    mapToQbloxTimegrid t g = t + pyFloorMod (g - t) g ∧
    t ≤ mapToQbloxTimegrid t g ∧
    mapToQbloxTimegrid t g - t < g ∧
    ∃ k : ℤ, mapToQbloxTimegrid t g = g * k :=
  ⟨rfl, mapToQbloxTimegrid_le t g hg, mapToQbloxTimegrid_sub_lt t g hg,
    mapToQbloxTimegrid_grid_multiple t g (ne_of_gt hg)⟩

/-- Witness for the amended C5 at `t = −5`, `g = 4`. -/
theorem grid_alignment_negative_silent_witness :
    (-5 : ℚ) < 0 ∧ (0 : ℚ) < 4 ∧
      (mapToQbloxTimegrid (-5) 4 = -5 + pyFloorMod (4 - -5) 4 ∧
       (-5 : ℚ) ≤ mapToQbloxTimegrid (-5) 4 ∧
       mapToQbloxTimegrid (-5) 4 - -5 < 4 ∧
       ∃ k : ℤ, mapToQbloxTimegrid (-5) 4 = 4 * k) :=
  ⟨by norm_num, by norm_num, grid_alignment_negative_silent (-5) 4 (by norm_num) (by norm_num)⟩

/-! ### Native instruction variants

The closed set of instruction kinds of quantify/instruction.py: the class
per kind, identified by the `name` written by each `__init__`
(`initial_object`, `acquire`, `delay`, `setf`, `shiftf`, `setp`, `fc`,
`parametric_pulse`, and the pulse-library instruction). -/

inductive InstKind
  | initialObject
  | acquire
  | delay
  | setf
  | shiftf
  | setp
  | fc
  | parametricPulse
  | pulseLib
  deriving DecidableEq, Repr

/-- The fields of `BaseInstruction` (quantify/instruction.py, lines 41-81)
that the compiler logic reads, over a scalar type `α` standing for the
Python floats.  `position` is assigned at registration time. -/
structure NativeInstr (α : Type) where
  kind : InstKind
  name : String
  channel : String
  port : String
  t0 : α
  duration : α
  phase : α
  frequency : α
  memorySlot : ℤ
  protocol : String
  position : ℕ
  deriving DecidableEq, Repr

/-- `get_phase_delta` dispatched over the instruction classes:
`SetPhaseInstruction` (line 475-477) returns `self.phase - channel.final_phase`,
`ShiftPhaseInstruction` (line 526-527) returns `self.phase`, and the base
class (line 125-127) returns `0`.  The channel's current final phase is
passed explicitly. -/
def getPhaseDelta [Ring α] (inst : NativeInstr α) (channelFinalPhase : α) : α :=
  match inst.kind with
  | .setp => inst.phase - channelFinalPhase
  | .fc => inst.phase
  | _ => 0

/-- `get_frequency_delta`: `SetFreqInstruction` (line 372-374) returns
`self.frequency - channel.final_frequency`, `ShiftFreqInstruction`
(line 424-425) returns `self.frequency`, base class returns `0`. -/
def getFrequencyDelta [Ring α] (inst : NativeInstr α) (channelFinalFrequency : α) : α :=
  match inst.kind with
  | .setf => inst.frequency - channelFinalFrequency
  | .shiftf => inst.frequency
  | _ => 0

/-- `get_acquisitions_delta`: `AcquireInstruction` (line 234-235) returns
`1`, base class (line 133-135) returns `0`. -/
def getAcquisitionsDelta (inst : NativeInstr α) : ℕ :=
  match inst.kind with
  | .acquire => 1
  | _ => 0

/-- The running state of a channel: accumulated phase, frequency and
acquisition count. -/
structure ChannelState (α : Type) where
  phase : α
  frequency : α
  acquisitions : ℕ

def initialChannelState [Ring α] : ChannelState α := ⟨0, 0, 0⟩

/-- Modelled from the spec: `QuantifyChannel` registration bookkeeping
(quantify/channel.py is not part of the sources provided).  Registering an
instruction adds its three deltas to the running channel state, each delta
evaluated against the state accumulated so far (so a `setp` delta is
`target − current_final_phase`). -/
def applyInstruction [Ring α] (s : ChannelState α) (inst : NativeInstr α) : ChannelState α :=
  { phase := s.phase + getPhaseDelta inst s.phase
    frequency := s.frequency + getFrequencyDelta inst s.frequency
    acquisitions := s.acquisitions + getAcquisitionsDelta inst }

/-- The channel state after the instructions of `insts` have been
registered in order. -/
def channelStateAfter [Ring α] (insts : List (NativeInstr α)) : ChannelState α :=
  insts.foldl applyInstruction initialChannelState

/-- Modelled from the spec: `QuantifyChannel.get_phase_at_position(p)` —
the ordered sum of the phase contributions of the instructions at
positions `0..p-1` only (quantify/channel.py is not in the provided
sources; the spec fixes this query to exclude position `p` itself). -/
def getPhaseAtPosition [Ring α] (insts : List (NativeInstr α)) (p : ℕ) : α :=
  (channelStateAfter (insts.take p)).phase

/-- Modelled from the spec: `QuantifyChannel.get_acquisitions_at_position(p)`
— the number of acquisitions up to and including position `p`
(quantify/channel.py is not in the provided sources; the spec fixes
`acq_index = acquisitions_up_to_and_including(position) − 1`). -/
def getAcquisitionsAtPosition [Ring α] (insts : List (NativeInstr α)) (p : ℕ) : ℕ :=
  (channelStateAfter (insts.take (p + 1))).acquisitions

/-- The renderable waveform operation emitted by `_generate_numerical_pulse`
(quantify/instruction.py, lines 657-686): the sample array after the phase
rotation, and the pulse-info envelope fields. -/
structure NumericalPulseOp (α σ : Type) where
  samples : List σ
  duration : α
  clock : String
  port : String

/-- Embedding of `_generate_numerical_pulse(channel, instruction, waveform)`:
`current_phase = channel.get_phase_at_position(instruction.position);
waveform *= exp(1j * current_phase)` — the multiplication by
`e^{i·phase}` is abstracted as a rotation action `rot : α → σ → σ` applied
to every sample. -/
def generateNumericalPulse [Ring α] (rot : α → σ → σ)
    (insts : List (NativeInstr α)) (inst : NativeInstr α)
    (waveform : List σ) : NumericalPulseOp α σ :=
  { samples := waveform.map (rot (getPhaseAtPosition insts inst.position))
    duration := inst.duration
    clock := inst.channel
    port := inst.port }

theorem getPhaseAtPosition_set (insts : List (NativeInstr α)) [Ring α]
    (p : ℕ) (j : NativeInstr α) :
    getPhaseAtPosition (insts.set p j) p = getPhaseAtPosition insts p := by
  unfold getPhaseAtPosition
  rw [List.set_take, List.set_eq_of_length_le (le_trans (List.length_take_le p insts) (le_refl p))]

/-- C1: rendering a waveform-carrying instruction at position `p` rotates
the evaluated sample array by the phase accumulated over positions
`0..p-1` of the channel only — the instruction's own contribution is never
included (replacing the instruction at position `p` leaves the used phase
unchanged) — and on a channel `[SetPhase θ at position 0, pulse at
position 1]` the rendered phase rotation of the pulse is exactly `θ` (the
claim's instance being `θ = π/2`). -/
theorem pulse_rotation_uses_prior_phase {α σ : Type} [Ring α] (rot : α → σ → σ)
    (insts : List (NativeInstr α)) (inst : NativeInstr α) (waveform : List σ) :
    (generateNumericalPulse rot insts inst waveform).samples
        = waveform.map (rot ((channelStateAfter (insts.take inst.position)).phase)) ∧
    (∀ j : NativeInstr α, getPhaseAtPosition (insts.set inst.position j) inst.position
        = getPhaseAtPosition insts inst.position) ∧
    (∀ (θ : α) (i₀ i₁ : NativeInstr α), i₀.kind = .setp → i₀.phase = θ →
        getPhaseAtPosition [i₀, i₁] 1 = θ) := by
  refine ⟨rfl, fun j => getPhaseAtPosition_set insts inst.position j, ?_⟩
  intro θ i₀ i₁ h₀ hθ
  simp [getPhaseAtPosition, channelStateAfter, applyInstruction, initialChannelState,
    getPhaseDelta, h₀, hθ]

/-- Witness for C1: over `ℝ`, with the channel holding
`[SetPhase(π/2) at position 0, ParametricPulse at position 1]`, the phase
used to rotate the pulse's samples is `π/2`. -/
theorem pulse_rotation_uses_prior_phase_witness :
    (⟨InstKind.setp, "setp", "d0", "d0", 0, 0, Real.pi / 2, 0, 0, "", 0⟩ :
        NativeInstr ℝ).kind = .setp ∧
    getPhaseAtPosition
      [⟨InstKind.setp, "setp", "d0", "d0", 0, 0, Real.pi / 2, 0, 0, "", 0⟩,
       ⟨InstKind.parametricPulse, "parametric_pulse", "d0", "d0", 0, 16, 0, 0, 0, "", 1⟩]
      1 = Real.pi / 2 :=
  ⟨rfl,
    (pulse_rotation_uses_prior_phase (σ := ℝ) (fun _ s => s)
      [⟨InstKind.setp, "setp", "d0", "d0", 0, 0, Real.pi / 2, 0, 0, "", 0⟩,
       ⟨InstKind.parametricPulse, "parametric_pulse", "d0", "d0", 0, 16, 0, 0, 0, "", 1⟩]
      ⟨InstKind.parametricPulse, "parametric_pulse", "d0", "d0", 0, 16, 0, 0, 0, "", 1⟩
      []).2.2 (Real.pi / 2)
      ⟨InstKind.setp, "setp", "d0", "d0", 0, 0, Real.pi / 2, 0, 0, "", 0⟩
      ⟨InstKind.parametricPulse, "parametric_pulse", "d0", "d0", 0, 16, 0, 0, 0, "", 1⟩
      rfl rfl⟩

/-! ### Acquire rendering (C2)

Embedding of `AcquireInstruction.to_operation` (quantify/instruction.py,
lines 265-314).  The two weight waveforms of the integrated-complex
protocol are recorded through their amplitudes `1` and `1j`, modelled as
pairs `(re, im)`. -/

structure AcquisitionOp (α : Type) where
  weights : List (α × α)
  clock : String
  port : String
  duration : α
  acqChannel : ℤ
  acqIndex : ℤ
  protocol : String
  deriving Repr, DecidableEq

def acquireToOperation [Ring α] (insts : List (NativeInstr α))
    (inst : NativeInstr α) : Except String (AcquisitionOp α) :=
  if inst.protocol = "SSBIntegrationComplex" then
    .ok
      { weights := [((1 : α), (0 : α)), ((0 : α), (1 : α))]
        clock := inst.channel
        port := inst.port
        duration := inst.duration
        acqChannel := ((inst.channel.drop 1).toInt?).getD 0
        acqIndex := (getAcquisitionsAtPosition insts inst.position : ℤ) - 1
        protocol := inst.protocol }
  else if inst.protocol = "trace" then
    .ok
      { weights := []
        clock := inst.channel
        port := inst.port
        duration := inst.duration
        acqChannel := ((inst.channel.drop 1).toInt?).getD 0
        acqIndex := (getAcquisitionsAtPosition insts inst.position : ℤ) - 1
        protocol := inst.protocol }
  else
    .error ("Cannot schedule acquisition with unknown protocol " ++ inst.protocol ++ ".")

theorem channelStateAfter_acquisitions_foldl [Ring α] (l : List (NativeInstr α))
    (s : ChannelState α) :
    (l.foldl applyInstruction s).acquisitions
      = s.acquisitions + List.countP (fun j => j.kind == InstKind.acquire) l := by
  induction l generalizing s with
  | nil => simp
  | cons x xs ih =>
    rw [List.foldl_cons, ih, List.countP_cons]
    unfold applyInstruction getAcquisitionsDelta
    cases hx : x.kind <;> simp [hx] <;> omega

theorem channelStateAfter_acquisitions [Ring α] (l : List (NativeInstr α)) :
    (channelStateAfter l).acquisitions
      = List.countP (fun j => j.kind == InstKind.acquire) l := by
  unfold channelStateAfter
  rw [channelStateAfter_acquisitions_foldl]
  simp [initialChannelState]

/-- C2: the acquisition index attached to the operation rendered for an
Acquire instruction at position `p` is the number of Acquire instructions
at positions `0..p` on its channel minus one (a 0-based ordinal among
acquisitions, since only Acquire has acquisition delta `1` and every other
kind has `0`); on a channel `[Acquire, Delay, Acquire]` the two indices are
`0` and `1`, unaffected by the interleaved Delay. -/
theorem acquire_index_is_channel_ordinal {α : Type} [Ring α]
    (insts : List (NativeInstr α)) (inst : NativeInstr α) :
    (∀ op : AcquisitionOp α, acquireToOperation insts inst = .ok op →
        op.acqIndex
          = (List.countP (fun j => j.kind == InstKind.acquire)
              (insts.take (inst.position + 1)) : ℤ) - 1) ∧
    (∀ j : NativeInstr α, getAcquisitionsDelta j = if j.kind = .acquire then 1 else 0) ∧
    (∀ a₀ d₁ a₂ : NativeInstr α, a₀.kind = .acquire → d₁.kind ≠ .acquire →
      a₂.kind = .acquire →
        (getAcquisitionsAtPosition [a₀, d₁, a₂] 0 : ℤ) - 1 = 0 ∧
        (getAcquisitionsAtPosition [a₀, d₁, a₂] 2 : ℤ) - 1 = 1) := by
  refine ⟨?_, ?_, ?_⟩
  · intro op hok
    unfold acquireToOperation at hok
    split at hok
    · cases hok
      simp [getAcquisitionsAtPosition, channelStateAfter_acquisitions]
    · split at hok
      · cases hok
        simp [getAcquisitionsAtPosition, channelStateAfter_acquisitions]
      · cases hok
  · intro j
    unfold getAcquisitionsDelta
    cases hj : j.kind <;> simp [hj]
  · intro a₀ d₁ a₂ h₀ h₁ h₂
    constructor <;>
      simp [getAcquisitionsAtPosition, channelStateAfter_acquisitions,
        List.countP_cons, h₀, h₁, h₂]

/-- Witness for C2 on the concrete channel `[Acquire, Delay, Acquire]`
over `ℚ`: the first acquisition renders index `0`, the second index `1`. -/
theorem acquire_index_is_channel_ordinal_witness :
    ((⟨InstKind.acquire, "acquire", "m0", "m0", 0, 16, 0, 0, 0, "trace", 0⟩ :
        NativeInstr ℚ).kind = .acquire) ∧
    ((getAcquisitionsAtPosition (α := ℚ)
        [⟨InstKind.acquire, "acquire", "m0", "m0", 0, 16, 0, 0, 0, "trace", 0⟩,
         ⟨InstKind.delay, "delay", "m0", "m0", 16, 16, 0, 0, 0, "", 1⟩,
         ⟨InstKind.acquire, "acquire", "m0", "m0", 32, 16, 0, 0, 0, "trace", 2⟩] 0 : ℤ) - 1 = 0 ∧
     (getAcquisitionsAtPosition (α := ℚ)
        [⟨InstKind.acquire, "acquire", "m0", "m0", 0, 16, 0, 0, 0, "trace", 0⟩,
         ⟨InstKind.delay, "delay", "m0", "m0", 16, 16, 0, 0, 0, "", 1⟩,
         ⟨InstKind.acquire, "acquire", "m0", "m0", 32, 16, 0, 0, 0, "trace", 2⟩] 2 : ℤ) - 1 = 1) :=
  ⟨rfl,
    (acquire_index_is_channel_ordinal (α := ℚ)
      [⟨InstKind.acquire, "acquire", "m0", "m0", 0, 16, 0, 0, 0, "trace", 0⟩,
       ⟨InstKind.delay, "delay", "m0", "m0", 16, 16, 0, 0, 0, "", 1⟩,
       ⟨InstKind.acquire, "acquire", "m0", "m0", 32, 16, 0, 0, 0, "trace", 2⟩]
      ⟨InstKind.acquire, "acquire", "m0", "m0", 0, 16, 0, 0, 0, "trace", 0⟩).2.2
      ⟨InstKind.acquire, "acquire", "m0", "m0", 0, 16, 0, 0, 0, "trace", 0⟩
      ⟨InstKind.delay, "delay", "m0", "m0", 16, 16, 0, 0, 0, "", 1⟩
      ⟨InstKind.acquire, "acquire", "m0", "m0", 32, 16, 0, 0, 0, "trace", 2⟩
      rfl (by simp) rfl⟩

/-! ### Instruction equality (C6)

Embedding of `Instruction.__eq__` (base/instruction/types.py, lines 79-101;
the quantify `BaseInstruction.__eq__` at quantify/instruction.py lines
83-103 is the same algorithm with one extra slot).  A Python instance of a
`__slots__` class may leave slots unset — each slot is an `Option`; the
label is always written by `__init__`.  `__eq__` compares the sets of
present attributes, removes `label`, and then compares the remaining
attribute values. -/

inductive Slot
  | t0
  | name
  | channel
  | port
  | duration
  | frequency
  | phase
  | memorySlot
  | protocol
  | parameters
  | pulseShape
  | binMode
  | acqReturnType
  | label
  deriving DecidableEq, Repr

/-- `Instruction.__slots__` in source order. -/
def instructionSlots : List Slot :=
  [.t0, .name, .channel, .port, .duration, .frequency, .phase, .memorySlot,
   .protocol, .parameters, .pulseShape, .binMode, .acqReturnType, .label]

/-- A value stored in a slot: a float (exact rational), a string, a list of
memory-slot integers, or a parameter dictionary. -/
inductive AttrVal
  | ratv (x : ℚ)
  | strv (x : String)
  | intsv (x : List ℤ)
  | paramsv (x : List (String × ℚ))
  deriving DecidableEq, Repr

/-- An `Instruction` instance: any slot may be unset, except the label,
which `__init__` always writes (`self.label = str(uuid())`). -/
structure PyInstruction where
  t0 : Option ℚ
  name : Option String
  channel : Option String
  port : Option String
  duration : Option ℚ
  frequency : Option ℚ
  phase : Option ℚ
  memorySlot : Option (List ℤ)
  protocol : Option String
  parameters : Option (List (String × ℚ))
  pulseShape : Option String
  binMode : Option String
  acqReturnType : Option String
  label : String
  deriving DecidableEq, Repr

/-- `getattr(a, slot)` as an optional value (`none` = attribute unset). -/
def getAttr (a : PyInstruction) : Slot → Option AttrVal
  | .t0 => a.t0.map .ratv
  | .name => a.name.map .strv
  | .channel => a.channel.map .strv
  | .port => a.port.map .strv
  | .duration => a.duration.map .ratv
  | .frequency => a.frequency.map .ratv
  | .phase => a.phase.map .ratv
  | .memorySlot => a.memorySlot.map .intsv
  | .protocol => a.protocol.map .strv
  | .parameters => a.parameters.map .paramsv
  | .pulseShape => a.pulseShape.map .strv
  | .binMode => a.binMode.map .strv
  | .acqReturnType => a.acqReturnType.map .strv
  | .label => some (.strv a.label)

/-- `hasattr(a, slot)`. -/
def hasAttr (a : PyInstruction) (s : Slot) : Bool := (getAttr a s).isSome

/-- The value comparison performed inside the `__eq__` loop; the loop only
runs on attributes present on both sides. -/
def attrValuesEq (a b : PyInstruction) (s : Slot) : Bool :=
  match getAttr a s, getAttr b s with
  | some x, some y => x == y
  | _, _ => true

/-- Embedding of `Instruction.__eq__`: build the sets of present slots of
both sides, fail if they differ, remove `label`, then require every
remaining attribute value to agree.  Python's set equality is modelled as
mutual membership of the two filtered slot lists. -/
def pyInstructionEq (a b : PyInstruction) : Bool :=
  if (instructionSlots.filter (hasAttr a)).all
        (fun s => (instructionSlots.filter (hasAttr b)).elem s)
      && (instructionSlots.filter (hasAttr b)).all
        (fun s => (instructionSlots.filter (hasAttr a)).elem s) then
    ((instructionSlots.filter (hasAttr a)).filter (fun s => s != Slot.label)).all
      (attrValuesEq a b)
  else
    false

theorem mem_instructionSlots (s : Slot) : s ∈ instructionSlots := by
  cases s <;> simp [instructionSlots]

theorem getAttr_eq_none_of_not_hasAttr {a : PyInstruction} {s : Slot}
    (h : ¬ hasAttr a s = true) : getAttr a s = none := by
  unfold hasAttr at h
  cases hga : getAttr a s
  · rfl
  · rw [hga] at h
    simp at h

theorem hasAttr_label (a : PyInstruction) : hasAttr a Slot.label = true := rfl

theorem pyInstructionEq_iff_attrs (a b : PyInstruction) :
    pyInstructionEq a b = true ↔
      ∀ s : Slot, s ≠ Slot.label → getAttr a s = getAttr b s := by
  unfold pyInstructionEq
  by_cases hcond :
      ((instructionSlots.filter (hasAttr a)).all
          (fun s => (instructionSlots.filter (hasAttr b)).elem s)
        && (instructionSlots.filter (hasAttr b)).all
          (fun s => (instructionSlots.filter (hasAttr a)).elem s)) = true
  · rw [if_pos hcond]
    rw [Bool.and_eq_true] at hcond
    obtain ⟨hfwd, hbwd⟩ := hcond
    have hab : ∀ s : Slot, hasAttr a s = true → hasAttr b s = true := by
      intro s hsa
      have h1 := List.all_eq_true.mp hfwd s
        (List.mem_filter.mpr ⟨mem_instructionSlots s, hsa⟩)
      have h2 : s ∈ instructionSlots.filter (hasAttr b) := List.elem_iff.mp h1
      exact (List.mem_filter.mp h2).2
    have hba : ∀ s : Slot, hasAttr b s = true → hasAttr a s = true := by
      intro s hsb
      have h1 := List.all_eq_true.mp hbwd s
        (List.mem_filter.mpr ⟨mem_instructionSlots s, hsb⟩)
      have h2 : s ∈ instructionSlots.filter (hasAttr a) := List.elem_iff.mp h1
      exact (List.mem_filter.mp h2).2
    constructor
    · intro h s hs
      by_cases ha : hasAttr a s = true
      · have hb := hab s ha
        have hmem : s ∈ (instructionSlots.filter (hasAttr a)).filter
            (fun s => s != Slot.label) :=
          List.mem_filter.mpr
            ⟨List.mem_filter.mpr ⟨mem_instructionSlots s, ha⟩, by simpa using hs⟩
        have hval := List.all_eq_true.mp h s hmem
        unfold attrValuesEq at hval
        unfold hasAttr at ha hb
        obtain ⟨x, hx⟩ := Option.isSome_iff_exists.mp ha
        obtain ⟨y, hy⟩ := Option.isSome_iff_exists.mp hb
        rw [hx, hy] at hval ⊢
        simpa using hval
      · have hb : ¬ hasAttr b s = true := fun hbb => ha (hba s hbb)
        rw [getAttr_eq_none_of_not_hasAttr ha, getAttr_eq_none_of_not_hasAttr hb]
    · intro h
      apply List.all_eq_true.mpr
      intro s hsmem
      obtain ⟨hsa, hlab⟩ := List.mem_filter.mp hsmem
      unfold attrValuesEq
      rw [h s (by simpa using hlab)]
      cases getAttr b s <;> simp
  · rw [if_neg hcond]
    constructor
    · intro h
      exact absurd h (by simp)
    · intro h
      exfalso
      apply hcond
      have hpresence : ∀ s : Slot, hasAttr a s = hasAttr b s := by
        intro s
        by_cases hs : s = Slot.label
        · subst hs
          rfl
        · unfold hasAttr
          rw [h s hs]
      rw [Bool.and_eq_true]
      constructor
      · apply List.all_eq_true.mpr
        intro s hsmem
        obtain ⟨hsl, hsa⟩ := List.mem_filter.mp hsmem
        exact List.elem_iff.mpr
          (List.mem_filter.mpr ⟨mem_instructionSlots s, by rw [← hpresence s]; exact hsa⟩)
      · apply List.all_eq_true.mpr
        intro s hsmem
        obtain ⟨hsl, hsb⟩ := List.mem_filter.mp hsmem
        exact List.elem_iff.mpr
          (List.mem_filter.mpr ⟨mem_instructionSlots s, by rw [hpresence s]; exact hsb⟩)

theorem getAttr_map_eq_iff {β : Type} (f : β → AttrVal)
    (hf : Function.Injective f) (x y : Option β) :
    x.map f = y.map f ↔ x = y :=
  ⟨fun h => Option.map_injective hf h, fun h => by rw [h]⟩

/-- C6: two instructions compare equal under `__eq__` iff every field
except the (always-present, process-unique) label matches — the label is
ignored and nothing else is; in particular two independently constructed
instructions with identical attributes but distinct labels compare
equal. -/
theorem instruction_eq_ignores_label_only (a b : PyInstruction) :
    (pyInstructionEq a b = true ↔
      (a.t0 = b.t0 ∧ a.name = b.name ∧ a.channel = b.channel ∧ a.port = b.port ∧
       a.duration = b.duration ∧ a.frequency = b.frequency ∧ a.phase = b.phase ∧
       a.memorySlot = b.memorySlot ∧ a.protocol = b.protocol ∧
       a.parameters = b.parameters ∧ a.pulseShape = b.pulseShape ∧
       a.binMode = b.binMode ∧ a.acqReturnType = b.acqReturnType)) ∧
    (∀ l l' : String, pyInstructionEq { a with label := l } { a with label := l' } = true) := by
  have hrat : Function.Injective AttrVal.ratv := fun x y h => by injection h
  have hstr : Function.Injective AttrVal.strv := fun x y h => by injection h
  have hints : Function.Injective AttrVal.intsv := fun x y h => by injection h
  have hparams : Function.Injective AttrVal.paramsv := fun x y h => by injection h
  constructor
  · rw [pyInstructionEq_iff_attrs]
    constructor
    · intro h
      refine ⟨?_, ?_, ?_, ?_, ?_, ?_, ?_, ?_, ?_, ?_, ?_, ?_, ?_⟩
      · exact (getAttr_map_eq_iff _ hrat _ _).mp (h .t0 (by simp))
      · exact (getAttr_map_eq_iff _ hstr _ _).mp (h .name (by simp))
      · exact (getAttr_map_eq_iff _ hstr _ _).mp (h .channel (by simp))
      · exact (getAttr_map_eq_iff _ hstr _ _).mp (h .port (by simp))
      · exact (getAttr_map_eq_iff _ hrat _ _).mp (h .duration (by simp))
      · exact (getAttr_map_eq_iff _ hrat _ _).mp (h .frequency (by simp))
      · exact (getAttr_map_eq_iff _ hrat _ _).mp (h .phase (by simp))
      · exact (getAttr_map_eq_iff _ hints _ _).mp (h .memorySlot (by simp))
      · exact (getAttr_map_eq_iff _ hstr _ _).mp (h .protocol (by simp))
      · exact (getAttr_map_eq_iff _ hparams _ _).mp (h .parameters (by simp))
      · exact (getAttr_map_eq_iff _ hstr _ _).mp (h .pulseShape (by simp))
      · exact (getAttr_map_eq_iff _ hstr _ _).mp (h .binMode (by simp))
      · exact (getAttr_map_eq_iff _ hstr _ _).mp (h .acqReturnType (by simp))
    · rintro ⟨h1, h2, h3, h4, h5, h6, h7, h8, h9, h10, h11, h12, h13⟩ s hs
      cases s <;>
        simp_all [getAttr]
  · intro l l'
    rw [pyInstructionEq_iff_attrs]
    intro s hs
    cases s <;> simp_all [getAttr]

/-- Witness for C6: two concrete independently constructed delay
instructions with identical attributes and distinct labels compare
equal. -/
theorem instruction_eq_ignores_label_only_witness :
    pyInstructionEq
      { t0 := some 0, name := some "delay", channel := some "d0", port := some "d0",
        duration := some 16, frequency := none, phase := none, memorySlot := none,
        protocol := none, parameters := none, pulseShape := none, binMode := none,
        acqReturnType := none, label := "uuid-a" }
      { t0 := some 0, name := some "delay", channel := some "d0", port := some "d0",
        duration := some 16, frequency := none, phase := none, memorySlot := none,
        protocol := none, parameters := none, pulseShape := none, binMode := none,
        acqReturnType := none, label := "uuid-b" } = true :=
  (instruction_eq_ignores_label_only
      { t0 := some 0, name := some "delay", channel := some "d0", port := some "d0",
        duration := some 16, frequency := none, phase := none, memorySlot := none,
        protocol := none, parameters := none, pulseShape := none, binMode := none,
        acqReturnType := none, label := "uuid-a" }
      { t0 := some 0, name := some "delay", channel := some "d0", port := some "d0",
        duration := some 16, frequency := none, phase := none, memorySlot := none,
        protocol := none, parameters := none, pulseShape := none, binMode := none,
        acqReturnType := none, label := "uuid-b" }).1.mpr
    ⟨rfl, rfl, rfl, rfl, rfl, rfl, rfl, rfl, rfl, rfl, rfl, rfl, rfl⟩

/-! ### Schedule assembly (C3)

Embedding of `NativeExperiment.dag` (base/experiment.py, lines 33-51): the
instruction list is sorted by `t0` with Python's stable `sorted` (modelled
by the stable `List.insertionSort`); a per-channel map of the previous
instruction is maintained, and each instruction after the first on its
channel contributes one edge weighted `j.t0 - (i.t0 + i.duration)`.  The
source performs no check whatsoever on the edge weight. -/

abbrev QInstr := NativeInstr ℚ

/-- The sort key `lambda j: j.t0`. -/
def t0le (i j : QInstr) : Prop := i.t0 ≤ j.t0

instance : DecidableRel t0le := fun i j => inferInstanceAs (Decidable (i.t0 ≤ j.t0))

instance : IsTotal QInstr t0le := ⟨fun i j => le_total i.t0 j.t0⟩

instance : IsTrans QInstr t0le := ⟨fun _ _ _ => le_trans⟩

/-- Python's `sorted(instructions, key=lambda j: j.t0)`: a stable sort by
`t0`. -/
def sortedByT0 (insts : List QInstr) : List QInstr := insts.insertionSort t0le

/-- The edge added by `dag.add_child(parent, obj=j, edge=j.t0 - (i.t0 + i.duration))`. -/
def gapEdge (i j : QInstr) : QInstr × QInstr × ℚ := (i, j, j.t0 - (i.t0 + i.duration))

/-- `prev_index[j.channel]` lookup. -/
def lookupPrev (m : List (String × QInstr)) (c : String) : Option QInstr :=
  (m.find? (fun e => e.1 == c)).map (fun e => e.2)

/-- The loop of `NativeExperiment.dag` over the sorted instruction list,
carrying the per-channel previous-instruction map and emitting edges. -/
def dagEdgesAux (m : List (String × QInstr)) : List QInstr → List (QInstr × QInstr × ℚ)
  | [] => []
  | j :: rest =>
    match lookupPrev m j.channel with
    | none => dagEdgesAux ((j.channel, j) :: m) rest
    | some i => gapEdge i j :: dagEdgesAux ((j.channel, j) :: m) rest

/-- The edges of the DAG built by `NativeExperiment.dag`. -/
def dagEdges (insts : List QInstr) : List (QInstr × QInstr × ℚ) :=
  dagEdgesAux [] (sortedByT0 insts)

/-- Consecutive-pair chaining of one channel's sorted instruction list. -/
def chainFrom (prev : Option QInstr) : List QInstr → List (QInstr × QInstr × ℚ)
  | [] => []
  | j :: rest =>
    match prev with
    | none => chainFrom (some j) rest
    | some i => gapEdge i j :: chainFrom (some j) rest

theorem lookupPrev_cons (d : String) (j : QInstr) (m : List (String × QInstr)) (c : String) :
    lookupPrev ((d, j) :: m) c = if d == c then some j else lookupPrev m c := by
  unfold lookupPrev
  rw [List.find?_cons]
  by_cases h : (d == c) = true
  · simp [h]
  · rw [Bool.not_eq_true] at h
    simp [h]

theorem dagEdgesAux_filter (c : String) :
    ∀ (l : List QInstr) (m : List (String × QInstr)),
      (dagEdgesAux m l).filter (fun e => e.2.1.channel == c)
        = chainFrom (lookupPrev m c) (l.filter (fun j => j.channel == c)) := by
  intro l
  induction l with
  | nil => intro m; rfl
  | cons j rest ih =>
    intro m
    by_cases hc : j.channel = c
    · have hcb : (j.channel == c) = true := by simpa using hc
      rw [List.filter_cons]
      simp only [hcb, if_pos]
      cases hm : lookupPrev m j.channel with
      | none =>
        unfold dagEdgesAux
        rw [hm, ih ((j.channel, j) :: m), lookupPrev_cons, if_pos hcb]
        rw [hc] at hm
        rw [hm]
        rfl
      | some i =>
        unfold dagEdgesAux
        rw [hm, List.filter_cons]
        have : ((gapEdge i j).2.1.channel == c) = true := by simpa [gapEdge] using hc
        simp only [this, if_pos]
        rw [ih ((j.channel, j) :: m), lookupPrev_cons, if_pos hcb]
        rw [hc] at hm
        rw [hm]
        rfl
    · have hcb : (j.channel == c) = false := by simpa using hc
      rw [List.filter_cons]
      simp only [hcb, Bool.false_eq_true, if_neg, ite_false]
      cases hm : lookupPrev m j.channel with
      | none =>
        unfold dagEdgesAux
        rw [hm, ih ((j.channel, j) :: m), lookupPrev_cons, hcb, if_neg (by simp)]
      | some i =>
        unfold dagEdgesAux
        rw [hm, List.filter_cons]
        have : ((gapEdge i j).2.1.channel == c) = false := by simpa [gapEdge] using hc
        simp only [this, Bool.false_eq_true, if_neg, ite_false]
        rw [ih ((j.channel, j) :: m), lookupPrev_cons, hcb, if_neg (by simp)]

theorem dagEdgesAux_gap (l : List QInstr) :
    ∀ (m : List (String × QInstr)) (e : QInstr × QInstr × ℚ), e ∈ dagEdgesAux m l →
      e.2.2 = e.2.1.t0 - (e.1.t0 + e.1.duration) := by
  induction l with
  | nil => intro m e he; cases he
  | cons j rest ih =>
    intro m e he
    unfold dagEdgesAux at he
    cases hm : lookupPrev m j.channel with
    | none =>
      rw [hm] at he
      exact ih _ e he
    | some i =>
      rw [hm] at he
      rcases List.mem_cons.mp he with h | h
      · subst h
        rfl
      · exact ih _ e h

theorem pairwise_stable_orderedInsert (x : QInstr) (l : List QInstr)
    (hl : List.Pairwise (fun i j : QInstr => i.t0 < j.t0 ∨ i.position < j.position) l)
    (hx : ∀ y ∈ l, x.position < y.position) :
    List.Pairwise (fun i j : QInstr => i.t0 < j.t0 ∨ i.position < j.position)
      (List.orderedInsert t0le x l) := by
  induction l with
  | nil => simp
  | cons b bs ih =>
    unfold List.orderedInsert
    by_cases hle : t0le x b
    · rw [if_pos hle]
      refine List.pairwise_cons.mpr ⟨?_, hl⟩
      intro y hy
      exact Or.inr (hx y hy)
    · rw [if_neg hle]
      obtain ⟨hb, hbs⟩ := List.pairwise_cons.mp hl
      refine List.pairwise_cons.mpr ⟨?_, ?_⟩
      · intro y hy
        rcases (List.mem_orderedInsert t0le).mp hy with h | h
        · subst h
          exact Or.inl (lt_of_not_le hle)
        · exact hb y h
      · exact ih hbs (fun y hy => hx y (List.mem_cons_of_mem b hy))

theorem pairwise_stable_insertionSort (l : List QInstr)
    (hl : List.Pairwise (fun i j : QInstr => i.position < j.position) l) :
    List.Pairwise (fun i j : QInstr => i.t0 < j.t0 ∨ i.position < j.position)
      (l.insertionSort t0le) := by
  induction l with
  | nil => simp
  | cons x xs ih =>
    obtain ⟨hx, hxs⟩ := List.pairwise_cons.mp hl
    unfold List.insertionSort
    apply pairwise_stable_orderedInsert
    · exact ih hxs
    · intro y hy
      exact hx y ((List.perm_insertionSort t0le xs).mem_iff.mp hy)

/-- C3 amended: schedule assembly stable-sorts the instruction list by
`t0` (ties keep registration order), and per channel chains consecutive
instructions with an edge carrying `gap = next.t0 − (prev.t0 +
prev.duration)` — but it performs no conflict check: negative gaps are
neither detected nor rejected, and the resulting graph (possibly holding
negative-gap edges) is always returned. -/
theorem dag_per_channel_chain (insts : List QInstr) (c : String) :
    (dagEdges insts).filter (fun e => e.2.1.channel == c)
        = chainFrom none ((sortedByT0 insts).filter (fun j => j.channel == c)) ∧
    List.Sorted t0le (sortedByT0 insts) ∧
    (sortedByT0 insts).Perm insts ∧
    (List.Pairwise (fun i j : QInstr => i.position < j.position) insts →
      List.Pairwise (fun i j : QInstr => i.t0 < j.t0 ∨ i.position < j.position)
        (sortedByT0 insts)) ∧
    (∀ e ∈ dagEdges insts, e.2.2 = e.2.1.t0 - (e.1.t0 + e.1.duration)) := by
  refine ⟨?_, ?_, ?_, ?_, ?_⟩
  · exact dagEdgesAux_filter c (sortedByT0 insts) []
  · exact List.sorted_insertionSort t0le insts
  · exact List.perm_insertionSort t0le insts
  · exact fun h => pairwise_stable_insertionSort insts h
  · exact fun e he => dagEdgesAux_gap (sortedByT0 insts) [] e he

/-- C3 counterexample: two overlapping instructions on channel `d0`
(`t0 = 0, duration = 8` and `t0 = 4, duration = 4`).  The claim says a
`SchedulingConflictError` is raised and no schedule with a negative gap is
ever returned; the code raises nothing and returns the graph with the
negative-gap edge `4 − (0 + 8) = −4`. -/
theorem scheduling_conflict_never_raised :
    dagEdges
        [⟨InstKind.delay, "delay", "d0", "d0", 0, 8, 0, 0, 0, "", 0⟩,
         ⟨InstKind.delay, "delay", "d0", "d0", 4, 4, 0, 0, 0, "", 1⟩]
      = [(⟨InstKind.delay, "delay", "d0", "d0", 0, 8, 0, 0, 0, "", 0⟩,
          ⟨InstKind.delay, "delay", "d0", "d0", 4, 4, 0, 0, 0, "", 1⟩, -4)] := by
  norm_num [dagEdges, sortedByT0, dagEdgesAux, lookupPrev, gapEdge,
    List.insertionSort, List.orderedInsert, t0le, List.find?]

/-- Witness for the amended C3 on the counterexample's channel: the
per-channel chain equation instantiated at the overlapping pair, and the
stable tie-order property under strictly increasing positions. -/
theorem dag_per_channel_chain_witness :
    ((dagEdges
        [⟨InstKind.delay, "delay", "d0", "d0", 0, 8, 0, 0, 0, "", 0⟩,
         ⟨InstKind.delay, "delay", "d0", "d0", 4, 4, 0, 0, 0, "", 1⟩]).filter
        (fun e => e.2.1.channel == "d0")
      = chainFrom none
          ((sortedByT0
              [⟨InstKind.delay, "delay", "d0", "d0", 0, 8, 0, 0, 0, "", 0⟩,
               ⟨InstKind.delay, "delay", "d0", "d0", 4, 4, 0, 0, 0, "", 1⟩]).filter
            (fun j => j.channel == "d0"))) ∧
    List.Pairwise (fun i j : QInstr => i.t0 < j.t0 ∨ i.position < j.position)
      (sortedByT0
        [⟨InstKind.delay, "delay", "d0", "d0", 0, 8, 0, 0, 0, "", 0⟩,
         ⟨InstKind.delay, "delay", "d0", "d0", 4, 4, 0, 0, 0, "", 1⟩]) :=
  ⟨(dag_per_channel_chain
      [⟨InstKind.delay, "delay", "d0", "d0", 0, 8, 0, 0, 0, "", 0⟩,
       ⟨InstKind.delay, "delay", "d0", "d0", 4, 4, 0, 0, 0, "", 1⟩] "d0").1,
   (dag_per_channel_chain
      [⟨InstKind.delay, "delay", "d0", "d0", 0, 8, 0, 0, 0, "", 0⟩,
       ⟨InstKind.delay, "delay", "d0", "d0", 4, 4, 0, 0, 0, "", 1⟩] "d0").2.2.2.1
     (by decide)⟩

/-! ### Wire-instruction decoding of Acquire (C7)

Embedding of `AcquireInstruction.list_from_qobj_inst`
(quantify/instruction.py, lines 237-263) together with the channel
registry used by `BaseInstruction.__init__` (lines 76-81): constructing an
instruction immediately registers it on its channel, the channel being
created lazily by `channel_registry.get`. -/

/-- A wire-level `PulseQobjInstruction`: the fields read by the decoders. -/
structure PulseQobjInst where
  name : String
  ch : String
  t0 : ℚ
  duration : ℚ
  phase : ℚ
  frequency : ℚ
  qubits : List ℕ
  memorySlot : List ℤ
  deriving Repr, DecidableEq

/-- The fields of `NativeQobjConfig` used by the Acquire decoder. -/
structure NativeQobjCfg where
  protocol : String
  binMode : String
  deriving Repr, DecidableEq

/-- The channel registry: channel name → ordered list of registered
instructions. -/
abbrev QuantifyRegistry := List (String × List QInstr)

/-- The instruction list of a channel; a channel not yet created is the
empty list (lazy creation). -/
def registryChannel (reg : QuantifyRegistry) (c : String) : List QInstr :=
  (((reg.find? (fun e => e.1 == c)).map (fun e => e.2))).getD []

def registryUpdate : QuantifyRegistry → String → List QInstr → QuantifyRegistry
  | [], c, l => [(c, l)]
  | (d, dl) :: rest, c, l =>
    if d == c then (c, l) :: rest else (d, dl) :: registryUpdate rest c l

/-- Modelled from the spec: `QuantifyChannel.register_instruction`
(quantify/channel.py is not in the provided sources).  Registration
appends the instruction to its channel's ordered list and assigns it a
position equal to the list length before the append. -/
def registerInstruction (reg : QuantifyRegistry) (c : String) (inst₀ : QInstr) :
    QInstr × QuantifyRegistry :=
  (({ inst₀ with channel := c, position := (registryChannel reg c).length }),
    registryUpdate reg c
      (registryChannel reg c ++
        [{ inst₀ with channel := c, position := (registryChannel reg c).length }]))

/-- Python `dict.get(key, default)` over an association list. -/
def dictGetD (m : List (String × String)) (k dflt : String) : String :=
  ((m.find? (fun e => e.1 == k)).map (fun e => e.2)).getD dflt

/-- The failure of `AcquireInstruction.list_from_qobj_inst`: the
uncaught `IndexError` of `qobj_inst.memory_slot[n]` (quantify/instruction.py,
line 257) when the wire instruction names more qubits than memory slots. -/
inductive DecodeFailure
  | indexFailure (n : ℕ)
  deriving DecidableEq, Repr

/-- The keyword arguments passed to `cls(...)` for the `n`-th qubit of an
Acquire wire instruction, given its (in-range) memory slot `ms`. -/
def acquireInstOf (qobj : PulseQobjInst) (native : NativeQobjCfg)
    (hw : List (String × String)) (t0 dur : ℚ) (q : ℕ) (ms : ℤ) : QInstr :=
  { kind := .acquire, name := "acquire", channel := "m" ++ toString q,
    port := dictGetD hw ("m" ++ toString q) qobj.name, t0 := t0, duration := dur,
    phase := 0, frequency := 0, memorySlot := ms,
    protocol := native.protocol, position := 0 }

/-- The comprehension of `AcquireInstruction.list_from_qobj_inst`: one
native Acquire per listed qubit, on channel `"m{qubit_idx}"`, carrying the
`n`-th memory slot, each registered at construction time.
`qobj_inst.memory_slot[n]` raises `IndexError` when the slot list is
shorter than the qubit list: the element's instruction is then not
constructed and the whole decode aborts with that error. -/
def acquireExpand (qobj : PulseQobjInst) (native : NativeQobjCfg)
    (hw : List (String × String)) (t0 dur : ℚ) :
    List ℕ → ℕ → QuantifyRegistry →
      Except DecodeFailure (List QInstr × QuantifyRegistry)
  | [], _, reg => .ok ([], reg)
  | q :: qs, n, reg =>
    match qobj.memorySlot.get? n with
    | none => .error (.indexFailure n)
    | some ms =>
      match acquireExpand qobj native hw t0 dur qs (n + 1)
          (registerInstruction reg ("m" ++ toString q)
            (acquireInstOf qobj native hw t0 dur q ms)).2 with
      | .error e => .error e
      | .ok res =>
        .ok ((registerInstruction reg ("m" ++ toString q)
          (acquireInstOf qobj native hw t0 dur q ms)).1 :: res.1, res.2)

/-- Embedding of `AcquireInstruction.list_from_qobj_inst`: the wire times
are unit-converted (`* 1e-9`) and grid-aligned, then the expansion runs
over the listed qubits. -/
def acquireListFromQobjInst (qobj : PulseQobjInst) (native : NativeQobjCfg)
    (hw : List (String × String)) (reg : QuantifyRegistry) :
    Except DecodeFailure (List QInstr × QuantifyRegistry) :=
  acquireExpand qobj native hw
    (mapToQbloxTimegrid (qobj.t0 / 10 ^ 9) QBLOX_TIMEGRID_INTERVAL)
    (mapToQbloxTimegrid (qobj.duration / 10 ^ 9) QBLOX_TIMEGRID_INTERVAL)
    qobj.qubits 0 reg

theorem acquireExpand_cons_none (qobj : PulseQobjInst) (native : NativeQobjCfg)
    (hw : List (String × String)) (t0 dur : ℚ) (q : ℕ) (qs : List ℕ) (n : ℕ)
    (reg : QuantifyRegistry) (hms : qobj.memorySlot.get? n = none) :
    acquireExpand qobj native hw t0 dur (q :: qs) n reg
      = .error (.indexFailure n) := by
  unfold acquireExpand
  rw [hms]

theorem acquireExpand_cons_some (qobj : PulseQobjInst) (native : NativeQobjCfg)
    (hw : List (String × String)) (t0 dur : ℚ) (q : ℕ) (qs : List ℕ) (n : ℕ)
    (reg : QuantifyRegistry) (ms : ℤ) (hms : qobj.memorySlot.get? n = some ms) :
    acquireExpand qobj native hw t0 dur (q :: qs) n reg
      = match acquireExpand qobj native hw t0 dur qs (n + 1)
          (registerInstruction reg ("m" ++ toString q)
            (acquireInstOf qobj native hw t0 dur q ms)).2 with
        | .error e => .error e
        | .ok res =>
          .ok ((registerInstruction reg ("m" ++ toString q)
            (acquireInstOf qobj native hw t0 dur q ms)).1 :: res.1, res.2) := by
  conv_lhs => unfold acquireExpand
  rw [hms]

/-- One registry extends another when every channel's list has only grown
at the end. -/
def regGrows (reg reg' : QuantifyRegistry) : Prop :=
  ∀ c : String, ∃ t : List QInstr, registryChannel reg' c = registryChannel reg c ++ t

theorem regGrows_refl (reg : QuantifyRegistry) : regGrows reg reg :=
  fun c => ⟨[], by simp⟩

theorem regGrows_trans {r₁ r₂ r₃ : QuantifyRegistry}
    (h₁ : regGrows r₁ r₂) (h₂ : regGrows r₂ r₃) : regGrows r₁ r₃ := by
  intro c
  obtain ⟨t₁, ht₁⟩ := h₁ c
  obtain ⟨t₂, ht₂⟩ := h₂ c
  exact ⟨t₁ ++ t₂, by rw [ht₂, ht₁, List.append_assoc]⟩

theorem registryChannel_update_self (reg : QuantifyRegistry) (c : String)
    (l : List QInstr) : registryChannel (registryUpdate reg c l) c = l := by
  induction reg with
  | nil => simp [registryUpdate, registryChannel, List.find?]
  | cons e rest ih =>
    obtain ⟨d, dl⟩ := e
    unfold registryUpdate
    by_cases h : (d == c) = true
    · rw [if_pos h]
      simp [registryChannel, List.find?]
    · rw [if_neg (by simpa using h)]
      unfold registryChannel
      rw [List.find?_cons]
      simp only [h]
      exact ih

theorem registryChannel_update_other (reg : QuantifyRegistry) (c d : String)
    (l : List QInstr) (hdc : (c == d) = false) :
    registryChannel (registryUpdate reg c l) d = registryChannel reg d := by
  induction reg with
  | nil =>
    simp [registryUpdate, registryChannel, List.find?, hdc]
  | cons e rest ih =>
    obtain ⟨d', dl⟩ := e
    unfold registryUpdate
    by_cases h : (d' == c) = true
    · rw [if_pos h]
      unfold registryChannel
      rw [List.find?_cons, List.find?_cons]
      have hd'd : (d' == d) = false := by
        have hc : d' = c := by simpa using h
        subst hc
        exact hdc
      simp only [hdc, hd'd]
    · rw [if_neg (by simpa using h)]
      unfold registryChannel
      rw [List.find?_cons, List.find?_cons]
      by_cases h2 : (d' == d) = true
      · simp only [h2]
      · simp only [Bool.not_eq_true] at h2
        simp only [h2]
        exact ih

theorem registerInstruction_grows (reg : QuantifyRegistry) (c : String)
    (inst₀ : QInstr) : regGrows reg (registerInstruction reg c inst₀).2 := by
  intro d
  by_cases h : (c == d) = true
  · have hc : c = d := by simpa using h
    subst hc
    exact ⟨_, registryChannel_update_self reg c _⟩
  · refine ⟨[], ?_⟩
    rw [List.append_nil]
    exact registryChannel_update_other reg c d _ (by simpa using h)

theorem registerInstruction_get (reg : QuantifyRegistry) (c : String) (i₀ : QInstr)
    (reg' : QuantifyRegistry) (hgrow : regGrows (registerInstruction reg c i₀).2 reg') :
    (registryChannel reg' ((registerInstruction reg c i₀).1.channel)).get?
        ((registerInstruction reg c i₀).1.position)
      = some (registerInstruction reg c i₀).1 := by
  obtain ⟨t, ht⟩ := hgrow c
  have hchan : (registerInstruction reg c i₀).1.channel = c := rfl
  have hpos : (registerInstruction reg c i₀).1.position
      = (registryChannel reg c).length := rfl
  have h2 : (registerInstruction reg c i₀).2
      = registryUpdate reg c
          (registryChannel reg c ++ [(registerInstruction reg c i₀).1]) := rfl
  rw [hchan, hpos, ht, h2, registryChannel_update_self,
    List.get?_append (by simp)]
  exact List.get?_concat_length _ _

theorem acquireExpand_grows (qobj : PulseQobjInst) (native : NativeQobjCfg)
    (hw : List (String × String)) (t0 dur : ℚ) :
    ∀ (qs : List ℕ) (n : ℕ) (reg : QuantifyRegistry)
      (res : List QInstr × QuantifyRegistry),
      acquireExpand qobj native hw t0 dur qs n reg = .ok res →
      regGrows reg res.2 := by
  intro qs
  induction qs with
  | nil =>
    intro n reg res hok
    simp only [acquireExpand, Except.ok.injEq] at hok
    subst hok
    exact regGrows_refl reg
  | cons q qs' ih =>
    intro n reg res hok
    cases hms : qobj.memorySlot.get? n with
    | none =>
      rw [acquireExpand_cons_none qobj native hw t0 dur q qs' n reg hms] at hok
      exact absurd hok (by simp)
    | some ms =>
      rw [acquireExpand_cons_some qobj native hw t0 dur q qs' n reg ms hms] at hok
      cases hrec : acquireExpand qobj native hw t0 dur qs' (n + 1)
          (registerInstruction reg ("m" ++ toString q)
            (acquireInstOf qobj native hw t0 dur q ms)).2 with
      | error e =>
        rw [hrec] at hok
        exact absurd hok (by simp)
      | ok res' =>
        rw [hrec] at hok
        simp only [Except.ok.injEq] at hok
        subst hok
        exact regGrows_trans (registerInstruction_grows reg _ _)
          (ih (n + 1) _ res' hrec)

theorem acquireExpand_spec (qobj : PulseQobjInst) (native : NativeQobjCfg)
    (hw : List (String × String)) (t0 dur : ℚ) :
    ∀ (qs : List ℕ) (n : ℕ) (reg : QuantifyRegistry)
      (out : List QInstr) (reg' : QuantifyRegistry),
      acquireExpand qobj native hw t0 dur qs n reg = .ok (out, reg') →
      out.length = qs.length ∧
      (∀ (k : ℕ) (q : ℕ), qs.get? k = some q →
        ∃ (inst : QInstr) (ms : ℤ),
          out.get? k = some inst ∧
          qobj.memorySlot.get? (n + k) = some ms ∧
          inst.kind = .acquire ∧
          inst.channel = "m" ++ toString q ∧
          inst.memorySlot = ms ∧
          inst.protocol = native.protocol ∧
          inst.t0 = t0 ∧ inst.duration = dur ∧
          (registryChannel reg' inst.channel).get? inst.position = some inst) := by
  intro qs
  induction qs with
  | nil =>
    intro n reg out reg' hok
    simp only [acquireExpand, Except.ok.injEq, Prod.mk.injEq] at hok
    obtain ⟨rfl, rfl⟩ := hok
    exact ⟨rfl, fun k q hk => by cases k <;> cases hk⟩
  | cons q qs' ih =>
    intro n reg out reg' hok
    cases hms : qobj.memorySlot.get? n with
    | none =>
      rw [acquireExpand_cons_none qobj native hw t0 dur q qs' n reg hms] at hok
      exact absurd hok (by simp)
    | some ms =>
      rw [acquireExpand_cons_some qobj native hw t0 dur q qs' n reg ms hms] at hok
      cases hrec : acquireExpand qobj native hw t0 dur qs' (n + 1)
          (registerInstruction reg ("m" ++ toString q)
            (acquireInstOf qobj native hw t0 dur q ms)).2 with
      | error e =>
        rw [hrec] at hok
        exact absurd hok (by simp)
      | ok res' =>
        rw [hrec] at hok
        simp only [Except.ok.injEq, Prod.mk.injEq] at hok
        obtain ⟨rfl, rfl⟩ := hok
        obtain ⟨ihlen, ihspec⟩ := ih (n + 1) _ res'.1 res'.2 hrec
        constructor
        · simp [ihlen]
        · intro k q' hk
          cases k with
          | zero =>
            have hq : q = q' := by simpa using hk
            subst hq
            refine ⟨(registerInstruction reg ("m" ++ toString q)
                (acquireInstOf qobj native hw t0 dur q ms)).1, ms,
              rfl, by simpa using hms, rfl, rfl, rfl, rfl, rfl, rfl, ?_⟩
            exact registerInstruction_get reg ("m" ++ toString q)
              (acquireInstOf qobj native hw t0 dur q ms) res'.2
              (acquireExpand_grows qobj native hw t0 dur qs' (n + 1) _ res' hrec)
          | succ k' =>
            have hk' : qs'.get? k' = some q' := by simpa using hk
            obtain ⟨inst, ms', hinst, hmsk, hkind, hch, hmem, hproto, ht0, hdur, hreg⟩ :=
              ihspec k' q' hk'
            refine ⟨inst, ms', by simpa using hinst, ?_, hkind, hch, hmem,
              hproto, ht0, hdur, hreg⟩
            have hsh : n + (k' + 1) = n + 1 + k' := by omega
            rw [hsh]
            exact hmsk

theorem acquireExpand_ok (qobj : PulseQobjInst) (native : NativeQobjCfg)
    (hw : List (String × String)) (t0 dur : ℚ) :
    ∀ (qs : List ℕ) (n : ℕ) (reg : QuantifyRegistry),
      n + qs.length ≤ qobj.memorySlot.length →
      ∃ (out : List QInstr) (reg' : QuantifyRegistry),
        acquireExpand qobj native hw t0 dur qs n reg = .ok (out, reg') := by
  intro qs
  induction qs with
  | nil =>
    intro n reg _
    exact ⟨[], reg, rfl⟩
  | cons q qs' ih =>
    intro n reg h
    have hlt : n < qobj.memorySlot.length := by
      simp only [List.length_cons] at h
      omega
    have hms : qobj.memorySlot.get? n = some (qobj.memorySlot.get ⟨n, hlt⟩) := by
      rw [List.get?_eq_getElem?, List.getElem?_eq_getElem hlt, List.get_eq_getElem]
    obtain ⟨out', reg'', hrec⟩ := ih (n + 1)
      (registerInstruction reg ("m" ++ toString q)
        (acquireInstOf qobj native hw t0 dur q (qobj.memorySlot.get ⟨n, hlt⟩))).2
      (by simp only [List.length_cons] at h; omega)
    refine ⟨(registerInstruction reg ("m" ++ toString q)
        (acquireInstOf qobj native hw t0 dur q (qobj.memorySlot.get ⟨n, hlt⟩))).1 :: out',
      reg'', ?_⟩
    rw [acquireExpand_cons_some qobj native hw t0 dur q qs' n reg _ hms, hrec]

/-- C7: when the Acquire wire instruction names `k` qubits and carries at
least `k` memory slots, decoding yields exactly `k` native Acquire
instructions, one per qubit in the given order; the `n`-th has channel
`"m{qubit_idx}"` derived from the `n`-th qubit and carries the `n`-th
memory slot, and each is registered on its (lazily created) channel at
construction time: it sits in the final registry on its channel at its
assigned position.  Conversely, a successful decode implies the slot list
was at least as long as the qubit list — with fewer slots the decode
aborts with the `IndexError` of `memory_slot[n]`, never expanding
silently. -/
theorem acquire_decode_expands_per_qubit (qobj : PulseQobjInst)
    (native : NativeQobjCfg) (hw : List (String × String)) (reg : QuantifyRegistry) :
    (qobj.qubits.length ≤ qobj.memorySlot.length →
      ∃ (out : List QInstr) (reg' : QuantifyRegistry),
        acquireListFromQobjInst qobj native hw reg = .ok (out, reg') ∧
        out.length = qobj.qubits.length ∧
        (∀ (k : ℕ) (q : ℕ), qobj.qubits.get? k = some q →
          ∃ (inst : QInstr) (ms : ℤ),
            out.get? k = some inst ∧
            qobj.memorySlot.get? k = some ms ∧
            inst.kind = .acquire ∧
            inst.channel = "m" ++ toString q ∧
            inst.memorySlot = ms ∧
            inst.protocol = native.protocol ∧
            inst.t0 = mapToQbloxTimegrid (qobj.t0 / 10 ^ 9) QBLOX_TIMEGRID_INTERVAL ∧
            inst.duration =
              mapToQbloxTimegrid (qobj.duration / 10 ^ 9) QBLOX_TIMEGRID_INTERVAL ∧
            (registryChannel reg' inst.channel).get? inst.position = some inst)) ∧
    (∀ (out : List QInstr) (reg' : QuantifyRegistry),
      acquireListFromQobjInst qobj native hw reg = .ok (out, reg') →
      qobj.qubits.length ≤ qobj.memorySlot.length) := by
  have hspec :=
    acquireExpand_spec qobj native hw
      (mapToQbloxTimegrid (qobj.t0 / 10 ^ 9) QBLOX_TIMEGRID_INTERVAL)
      (mapToQbloxTimegrid (qobj.duration / 10 ^ 9) QBLOX_TIMEGRID_INTERVAL)
      qobj.qubits 0 reg
  constructor
  · intro hlen
    obtain ⟨out, reg', hok⟩ :=
      acquireExpand_ok qobj native hw
        (mapToQbloxTimegrid (qobj.t0 / 10 ^ 9) QBLOX_TIMEGRID_INTERVAL)
        (mapToQbloxTimegrid (qobj.duration / 10 ^ 9) QBLOX_TIMEGRID_INTERVAL)
        qobj.qubits 0 reg (by omega)
    obtain ⟨hlen', hprops⟩ := hspec out reg' hok
    refine ⟨out, reg', hok, hlen', ?_⟩
    intro k q hk
    obtain ⟨inst, ms, h1, h2, h3, h4, h5, h6, h7, h8, h9⟩ := hprops k q hk
    exact ⟨inst, ms, h1, by simpa using h2, h3, h4, h5, h6, h7, h8, h9⟩
  · intro out reg' hok
    by_contra hcon
    push_neg at hcon
    obtain ⟨hlen', hprops⟩ := hspec out reg' hok
    have hq : qobj.qubits.get? qobj.memorySlot.length
        = some (qobj.qubits.get ⟨qobj.memorySlot.length, hcon⟩) := by
      rw [List.get?_eq_getElem?, List.getElem?_eq_getElem hcon, List.get_eq_getElem]
    obtain ⟨inst, ms, -, hms, -, -, -, -, -, -, -⟩ :=
      hprops qobj.memorySlot.length _ hq
    rw [Nat.zero_add] at hms
    have hnone : qobj.memorySlot.get? qobj.memorySlot.length = none := by
      rw [List.get?_eq_getElem?]
      simp
    rw [hnone] at hms
    cases hms

/-- Witness for C7: a two-qubit Acquire on qubits `[0, 1]` with memory
slots `[5, 7]` (enough slots) expands to two registered Acquire
instructions; the second sits on channel `m1` and carries slot `7`. -/
theorem acquire_decode_expands_per_qubit_witness :
    ([0, 1] : List ℕ).length ≤ ([5, 7] : List ℤ).length ∧
    ∃ (out : List QInstr) (reg' : QuantifyRegistry),
      acquireListFromQobjInst ⟨"acquire", "m0", 0, 16, 0, 0, [0, 1], [5, 7]⟩
          ⟨"trace", "APPEND"⟩ [] [] = .ok (out, reg') ∧
      out.length = 2 ∧
      ∃ (inst : QInstr) (ms : ℤ),
        out.get? 1 = some inst ∧
        ([5, 7] : List ℤ).get? 1 = some ms ∧
        inst.channel = "m" ++ toString 1 ∧ inst.memorySlot = ms := by
  refine ⟨by decide, ?_⟩
  obtain ⟨out, reg', hok, hlen, hprops⟩ :=
    (acquire_decode_expands_per_qubit
      ⟨"acquire", "m0", 0, 16, 0, 0, [0, 1], [5, 7]⟩ ⟨"trace", "APPEND"⟩ [] []).1
      (by decide)
  obtain ⟨inst, ms, h1, h2, -, hch, hmem, -, -, -, -⟩ := hprops 1 1 rfl
  exact ⟨out, reg', hok, hlen, inst, ms, h1, h2, hch, hmem⟩

/-! ### Library-pulse decode and render (C8)

Embedding of `PulseLibInstruction.list_from_qobj_inst`
(quantify/instruction.py, lines 619-644) and
`PulseLibInstruction.to_operation` (lines 646-654).  The job's named
waveform library `config.pulse_library` is modelled as a name-indexed
association list; a missing key raises — uncaught at decode time
(`KeyError`), wrapped into `RuntimeError("Unable to schedule operation …")`
at render time.  Both are typed failures of the embedding. -/

abbrev WaveformLib (σ : Type) := List (String × List σ)

def pulseLibraryLookup {σ : Type} (lib : WaveformLib σ) (name : String) : Option (List σ) :=
  (lib.find? (fun e => e.1 == name)).map (fun e => e.2)

inductive PulseLibFailure
  | keyFailure (name : String)
  | scheduleFailure (name : String)
  deriving DecidableEq, Repr

/-- Embedding of `PulseLibInstruction.list_from_qobj_inst`: the duration is
`config.pulse_library[name].shape[0]` (the sample count of the named
waveform), unit-converted and grid-aligned; the instruction registers on
its channel at construction. -/
def pulseLibListFromQobjInst {σ : Type} (qobj : PulseQobjInst) (lib : WaveformLib σ)
    (hw : List (String × String)) (reg : QuantifyRegistry) :
    Except PulseLibFailure (List QInstr × QuantifyRegistry) :=
  match pulseLibraryLookup lib qobj.name with
  | none => .error (.keyFailure qobj.name)
  | some wf =>
    .ok
      ([(registerInstruction reg qobj.ch
          { kind := .pulseLib, name := qobj.name, channel := qobj.ch,
            port := dictGetD hw qobj.ch qobj.ch,
            t0 := mapToQbloxTimegrid (qobj.t0 / 10 ^ 9) QBLOX_TIMEGRID_INTERVAL,
            duration := mapToQbloxTimegrid ((wf.length : ℚ) / 10 ^ 9)
              QBLOX_TIMEGRID_INTERVAL,
            phase := 0, frequency := 0, memorySlot := 0, protocol := "",
            position := 0 }).1],
        (registerInstruction reg qobj.ch
          { kind := .pulseLib, name := qobj.name, channel := qobj.ch,
            port := dictGetD hw qobj.ch qobj.ch,
            t0 := mapToQbloxTimegrid (qobj.t0 / 10 ^ 9) QBLOX_TIMEGRID_INTERVAL,
            duration := mapToQbloxTimegrid ((wf.length : ℚ) / 10 ^ 9)
              QBLOX_TIMEGRID_INTERVAL,
            phase := 0, frequency := 0, memorySlot := 0, protocol := "",
            position := 0 }).2)

/-- Embedding of `PulseLibInstruction.to_operation`: look the samples up by
the same instruction name and render the numerical pulse; a missing name
is the caught `KeyError`, re-raised as a scheduling failure. -/
def pulseLibToOperation {σ : Type} (rot : ℚ → σ → σ) (lib : WaveformLib σ)
    (insts : List QInstr) (inst : QInstr) :
    Except PulseLibFailure (NumericalPulseOp ℚ σ) :=
  match pulseLibraryLookup lib inst.name with
  | none => .error (.scheduleFailure inst.name)
  | some wf => .ok (generateNumericalPulse rot insts inst wf)

/-- C8: the duration of a LibraryPulse is obtained by looking up the
instruction name in the job's waveform library at decode time, its samples
by the same name at render time; a name missing from the library fails
with a typed lookup failure in both places — never a silently wrong
duration or waveform. -/
theorem library_pulse_lookup_by_name {σ : Type} (rot : ℚ → σ → σ)
    (qobj : PulseQobjInst) (lib : WaveformLib σ) (hw : List (String × String))
    (reg : QuantifyRegistry) (insts : List QInstr) (inst : QInstr) :
    (pulseLibraryLookup lib qobj.name = none →
      pulseLibListFromQobjInst qobj lib hw reg = .error (.keyFailure qobj.name)) ∧
    (∀ wf : List σ, pulseLibraryLookup lib qobj.name = some wf →
      ∃ (out : List QInstr) (reg' : QuantifyRegistry),
        pulseLibListFromQobjInst qobj lib hw reg = .ok (out, reg') ∧
        out.length = 1 ∧
        ∀ i ∈ out, i.name = qobj.name ∧
          i.duration = mapToQbloxTimegrid ((wf.length : ℚ) / 10 ^ 9)
            QBLOX_TIMEGRID_INTERVAL) ∧
    (pulseLibraryLookup lib inst.name = none →
      pulseLibToOperation rot lib insts inst = .error (.scheduleFailure inst.name)) ∧
    (∀ wf : List σ, pulseLibraryLookup lib inst.name = some wf →
      pulseLibToOperation rot lib insts inst
          = .ok (generateNumericalPulse rot insts inst wf) ∧
        (generateNumericalPulse rot insts inst wf).samples
          = wf.map (rot (getPhaseAtPosition insts inst.position))) := by
  refine ⟨?_, ?_, ?_, ?_⟩
  · intro hnone
    unfold pulseLibListFromQobjInst
    rw [hnone]
  · intro wf hsome
    unfold pulseLibListFromQobjInst
    rw [hsome]
    refine ⟨_, _, rfl, rfl, ?_⟩
    intro i hi
    rw [List.mem_singleton] at hi
    subst hi
    exact ⟨rfl, rfl⟩
  · intro hnone
    unfold pulseLibToOperation
    rw [hnone]
  · intro wf hsome
    unfold pulseLibToOperation
    rw [hsome]
    exact ⟨rfl, rfl⟩

/-- Witness for C8 with a one-entry library `{"gauss" ↦ 16 samples}`:
decoding `"gauss"` succeeds with the aligned duration derived from the
sample count, while decoding and rendering the absent name `"drag"` fail
with the typed lookup failures. -/
theorem library_pulse_lookup_by_name_witness :
    (pulseLibListFromQobjInst (σ := ℚ × ℚ)
        ⟨"drag", "d0", 0, 0, 0, 0, [], []⟩
        [("gauss", List.replicate 16 ((1 : ℚ), (0 : ℚ)))] [] []
      = .error (.keyFailure "drag")) ∧
    (∃ (out : List QInstr) (reg' : QuantifyRegistry),
      pulseLibListFromQobjInst (σ := ℚ × ℚ)
          ⟨"gauss", "d0", 0, 0, 0, 0, [], []⟩
          [("gauss", List.replicate 16 ((1 : ℚ), (0 : ℚ)))] [] []
        = .ok (out, reg') ∧
      out.length = 1 ∧
      ∀ i ∈ out, i.name = "gauss" ∧
        i.duration = mapToQbloxTimegrid
          (((List.replicate 16 ((1 : ℚ), (0 : ℚ))).length : ℚ) / 10 ^ 9)
          QBLOX_TIMEGRID_INTERVAL) ∧
    (pulseLibToOperation (σ := ℚ × ℚ) (fun _ s => s)
        [("gauss", List.replicate 16 ((1 : ℚ), (0 : ℚ)))] []
        ⟨InstKind.pulseLib, "drag", "d0", "d0", 0, 16, 0, 0, 0, "", 0⟩
      = .error (.scheduleFailure "drag")) :=
  ⟨(library_pulse_lookup_by_name (fun _ s => s)
      ⟨"drag", "d0", 0, 0, 0, 0, [], []⟩
      [("gauss", List.replicate 16 ((1 : ℚ), (0 : ℚ)))] [] [] []
      ⟨InstKind.pulseLib, "drag", "d0", "d0", 0, 16, 0, 0, 0, "", 0⟩).1 rfl,
   (library_pulse_lookup_by_name (fun _ s => s)
      ⟨"gauss", "d0", 0, 0, 0, 0, [], []⟩
      [("gauss", List.replicate 16 ((1 : ℚ), (0 : ℚ)))] [] [] []
      ⟨InstKind.pulseLib, "drag", "d0", "d0", 0, 16, 0, 0, 0, "", 0⟩).2.1
      (List.replicate 16 ((1 : ℚ), (0 : ℚ))) rfl,
   (library_pulse_lookup_by_name (fun _ s => s)
      ⟨"drag", "d0", 0, 0, 0, 0, [], []⟩
      [("gauss", List.replicate 16 ((1 : ℚ), (0 : ℚ)))] [] [] []
      ⟨InstKind.pulseLib, "drag", "d0", "d0", 0, 16, 0, 0, 0, "", 0⟩).2.2.1 rfl⟩

/-! ### Executor result shaping (C9)

Embedding of `QiskitPulse2QExecutor.run` (qiskit/executor.py, lines
157-185) and `QiskitPulse1QExecutor.run` (lines 95-133).  The backend's
returned memory is a real array whose innermost axis holds the real and
imaginary parts: shape `(channels, 2)` under `"avg"`, shape
`(shots, slots, 2)` under `"single"`.  The run combines them into complex
samples (modelled as pairs) and shapes an `xarray` dataset: one data
variable per acquisition channel, holding one value per repetition.  The
2-qubit executor raises on `"avg"` before returning any data. -/

abbrev Cplx := ℚ × ℚ

inductive ExecFailure
  | unsupportedMode (msg : String)
  deriving DecidableEq, Repr

/-- Embedding of `QiskitPulse2QExecutor.run`: on `"avg"` raise
`NotImplementedError("Not implemented 2q avg.")` (the claim's
unsupported-mode failure); otherwise `complex_data = data[:, :, 0] +
1j * data[:, :, 1]` and one data variable per measured channel, each
holding one complex value per repetition. -/
def qiskitPulse2QRun (measReturn : String) (data : List (List (List ℚ))) :
    Except ExecFailure (List (String × List Cplx)) :=
  if measReturn = "avg" then .error (.unsupportedMode "Not implemented 2q avg.")
  else
    .ok ((List.range (data.headD []).length).map (fun i =>
      (toString i,
        data.map (fun rep => ((rep.getD i []).getD 0 0, (rep.getD i []).getD 1 0)))))

/-- Embedding of the `"avg"` branch of `QiskitPulse1QExecutor.run`:
`complex_data = data[:, 0] + 1j * data[:, 1]` — one complex value per row
of the averaged memory (one per acquisition channel), in the single data
variable `"0"`. -/
def qiskitPulse1QRunAvg (data : List (List ℚ)) : List (String × List Cplx) :=
  [("0", data.map (fun row => (row.getD 0 0, row.getD 1 0)))]

/-- Embedding of the `"single"` branch of `QiskitPulse1QExecutor.run`:
`complex_data = data[:, 0, 0] + 1j * data[:, 0, 1]` — one complex value
per repetition for the single acquisition channel. -/
def qiskitPulse1QRunSingle (data : List (List (List ℚ))) : List (String × List Cplx) :=
  [("0", data.map (fun rep => ((rep.getD 0 []).getD 0 0, (rep.getD 0 []).getD 1 0)))]

/-- C9: the returned real/imaginary pairs are combined into complex
samples; `"avg"` yields one complex value per acquisition channel,
`"single"` one per (repetition, acquisition channel) pair; and requesting
`"avg"` on the two-qubit executor (more than one acquisition channel)
fails with the unsupported-mode error instead of returning data. -/
theorem run_result_shape (measReturn : String) (data2q : List (List (List ℚ)))
    (dataAvg : List (List ℚ)) (dataSingle : List (List (List ℚ))) :
    qiskitPulse2QRun "avg" data2q
        = .error (.unsupportedMode "Not implemented 2q avg.") ∧
    (measReturn ≠ "avg" →
      ∃ ds : List (String × List Cplx),
        qiskitPulse2QRun measReturn data2q = .ok ds ∧
        ds.length = (data2q.headD []).length ∧
        (∀ v ∈ ds, v.2.length = data2q.length) ∧
        (∀ i : ℕ, i < (data2q.headD []).length →
          ds.get? i = some (toString i,
            data2q.map (fun rep =>
              ((rep.getD i []).getD 0 0, (rep.getD i []).getD 1 0))))) ∧
    ((qiskitPulse1QRunAvg dataAvg).length = 1 ∧
      ∀ v ∈ qiskitPulse1QRunAvg dataAvg, v.2.length = dataAvg.length ∧
        v.2 = dataAvg.map (fun row => (row.getD 0 0, row.getD 1 0))) ∧
    ((qiskitPulse1QRunSingle dataSingle).length = 1 ∧
      ∀ v ∈ qiskitPulse1QRunSingle dataSingle, v.2.length = dataSingle.length ∧
        v.2 = dataSingle.map (fun rep =>
          ((rep.getD 0 []).getD 0 0, (rep.getD 0 []).getD 1 0))) := by
  refine ⟨?_, ?_, ?_, ?_⟩
  · unfold qiskitPulse2QRun
    rw [if_pos rfl]
  · intro hne
    unfold qiskitPulse2QRun
    rw [if_neg hne]
    refine ⟨_, rfl, by simp, ?_, ?_⟩
    · intro v hv
      obtain ⟨i, hi, hvi⟩ := List.mem_map.mp hv
      subst hvi
      simp
    · intro i hi
      rw [List.get?_map, List.get?_range hi]
      rfl
  · refine ⟨rfl, ?_⟩
    intro v hv
    unfold qiskitPulse1QRunAvg at hv
    rw [List.mem_singleton] at hv
    subst hv
    exact ⟨by simp, rfl⟩
  · refine ⟨rfl, ?_⟩
    intro v hv
    unfold qiskitPulse1QRunSingle at hv
    rw [List.mem_singleton] at hv
    subst hv
    exact ⟨by simp, rfl⟩

/-- Witness for C9: in `"single"` mode with two repetitions over two
channels, the 2-qubit run returns two channel variables with two complex
values each. -/
theorem run_result_shape_witness :
    "single" ≠ "avg" ∧
    (∃ ds : List (String × List Cplx),
      qiskitPulse2QRun "single" [[[1, 2], [3, 4]], [[5, 6], [7, 8]]] = .ok ds ∧
      ds.length = (([[[1, 2], [3, 4]], [[5, 6], [7, 8]]] :
          List (List (List ℚ))).headD []).length ∧
      (∀ v ∈ ds, v.2.length = 2) ∧
      (∀ i : ℕ, i < (([[[1, 2], [3, 4]], [[5, 6], [7, 8]]] :
          List (List (List ℚ))).headD []).length →
        ds.get? i = some (toString i,
          ([[[1, 2], [3, 4]], [[5, 6], [7, 8]]] : List (List (List ℚ))).map
            (fun rep => ((rep.getD i []).getD 0 0, (rep.getD i []).getD 1 0))))) :=
  ⟨by decide,
    (run_result_shape "single" [[[1, 2], [3, 4]], [[5, 6], [7, 8]]] [] []).2.1
      (by decide)⟩

/-! ### Backported binary search (C10)

Embedding of `bisect_left` (utils/general.py, lines 88-117, the
`key is None` branch) and `insort_left` (lines 73-84): the loop halves
`[lo, hi)` around `mid = (lo + hi) // 2`, moving `lo` past `mid` when
`a[mid] < x` and `hi` down to `mid` otherwise. -/

def bisectLeftLoop {α : Type} [LinearOrder α] (a : List α) (x : α) :
    ℕ → ℕ → ℕ
  | lo, hi =>
    if h : lo < hi then
      if a.getD ((lo + hi) / 2) x < x then
        bisectLeftLoop a x ((lo + hi) / 2 + 1) hi
      else
        bisectLeftLoop a x lo ((lo + hi) / 2)
    else lo
termination_by lo hi => hi - lo
decreasing_by
  · omega
  · omega

/-- `bisect_left(a, x)` with the default bounds `lo = 0`, `hi = len(a)`. -/
def bisect_left {α : Type} [LinearOrder α] (a : List α) (x : α) : ℕ :=
  bisectLeftLoop a x 0 a.length

/-- `insort_left(a, x)`: insert `x` at `bisect_left(a, x)`. -/
def insort_left {α : Type} [LinearOrder α] (a : List α) (x : α) : List α :=
  a.insertIdx (bisect_left a x) x

theorem bisectLeftLoop_spec {α : Type} [LinearOrder α] (a : List α) (x : α)
    (hsorted : List.Sorted (· ≤ ·) a) :
    ∀ (fuel lo hi : ℕ), hi - lo ≤ fuel → lo ≤ hi → hi ≤ a.length →
      (∀ k, k < lo → ∀ (hk : k < a.length), a.get ⟨k, hk⟩ < x) →
      (∀ k, hi ≤ k → ∀ (hk : k < a.length), x ≤ a.get ⟨k, hk⟩) →
      lo ≤ bisectLeftLoop a x lo hi ∧ bisectLeftLoop a x lo hi ≤ hi ∧
      (∀ k, k < bisectLeftLoop a x lo hi → ∀ (hk : k < a.length), a.get ⟨k, hk⟩ < x) ∧
      (∀ k, bisectLeftLoop a x lo hi ≤ k → ∀ (hk : k < a.length), x ≤ a.get ⟨k, hk⟩) := by
  intro fuel
  induction fuel with
  | zero =>
    intro lo hi hfuel hlh hhi hlow hhigh
    have heq : lo = hi := by omega
    subst heq
    rw [bisectLeftLoop]
    rw [dif_neg (by omega)]
    exact ⟨le_refl lo, le_refl lo, hlow, hhigh⟩
  | succ fuel ih =>
    intro lo hi hfuel hlh hhi hlow hhigh
    rw [bisectLeftLoop]
    by_cases hlt : lo < hi
    · rw [dif_pos hlt]
      have hmidlt : (lo + hi) / 2 < a.length := by omega
      have hgetD : a.getD ((lo + hi) / 2) x = a.get ⟨(lo + hi) / 2, hmidlt⟩ := by
        rw [List.getD_eq_getElem?_getD, List.getElem?_eq_getElem hmidlt]
        rfl
      by_cases hcmp : a.getD ((lo + hi) / 2) x < x
      · rw [if_pos hcmp]
        have hres := ih ((lo + hi) / 2 + 1) hi (by omega) (by omega) hhi
          (fun k hk hkl => by
            rcases Nat.lt_or_ge k lo with h | h
            · exact hlow k h hkl
            · have hk2 : k ≤ (lo + hi) / 2 := by omega
              have : a.get ⟨k, hkl⟩ ≤ a.get ⟨(lo + hi) / 2, hmidlt⟩ := by
                rcases Nat.lt_or_ge k ((lo + hi) / 2) with h2 | h2
                · exact List.pairwise_iff_get.mp hsorted ⟨k, hkl⟩
                    ⟨(lo + hi) / 2, hmidlt⟩ h2
                · have : k = (lo + hi) / 2 := by omega
                  subst this
                  exact le_refl _
              calc a.get ⟨k, hkl⟩ ≤ a.get ⟨(lo + hi) / 2, hmidlt⟩ := this
                _ < x := by rw [← hgetD]; exact hcmp)
          hhigh
        exact ⟨by omega, hres.2.1, hres.2.2.1, hres.2.2.2⟩
      · rw [if_neg hcmp]
        have hxmid : x ≤ a.get ⟨(lo + hi) / 2, hmidlt⟩ := by
          rw [← hgetD]
          exact le_of_not_lt hcmp
        have hres := ih lo ((lo + hi) / 2) (by omega) (by omega) (by omega) hlow
          (fun k hk hkl => by
            have : a.get ⟨(lo + hi) / 2, hmidlt⟩ ≤ a.get ⟨k, hkl⟩ := by
              rcases Nat.lt_or_ge ((lo + hi) / 2) k with h2 | h2
              · exact List.pairwise_iff_get.mp hsorted
                  ⟨(lo + hi) / 2, hmidlt⟩ ⟨k, hkl⟩ h2
              · have : k = (lo + hi) / 2 := by omega
                subst this
                exact le_refl _
            exact le_trans hxmid this)
        exact ⟨hres.1, by omega, hres.2.2.1, hres.2.2.2⟩
    · rw [dif_neg hlt]
      have heq : lo = hi := by omega
      subst heq
      exact ⟨le_refl lo, le_refl lo, hlow, hhigh⟩

theorem insertIdx_eq_take_append {α : Type} (x : α) :
    ∀ (i : ℕ) (l : List α), i ≤ l.length →
      l.insertIdx i x = l.take i ++ x :: l.drop i := by
  intro i
  induction i with
  | zero => intro l _; simp
  | succ n ih =>
    intro l hl
    cases l with
    | nil => exact absurd hl (by simp)
    | cons hd tl =>
      rw [List.insertIdx_succ_cons, List.take_succ_cons, List.drop_succ_cons,
        List.cons_append, ih tl (by simpa using hl)]

/-- C10: for a list sorted in nondecreasing order and default bounds,
`bisect_left(a, x)` returns the unique index `i ≤ len(a)` with every
element of `a[:i]` strictly below `x` and every element of `a[i:]` at
least `x`; consequently `insort_left` keeps the list sorted and places `x`
strictly to the left of any element equal to `x`. -/
theorem bisect_left_partition {α : Type} [LinearOrder α] (a : List α) (x : α)
    (hsorted : List.Sorted (· ≤ ·) a) :
    bisect_left a x ≤ a.length ∧
    (∀ e ∈ a.take (bisect_left a x), e < x) ∧
    (∀ e ∈ a.drop (bisect_left a x), x ≤ e) ∧
    (∀ j : ℕ, j ≤ a.length → (∀ e ∈ a.take j, e < x) → (∀ e ∈ a.drop j, x ≤ e) →
      j = bisect_left a x) ∧
    List.Sorted (· ≤ ·) (insort_left a x) ∧
    (∀ e ∈ a.take (bisect_left a x), e ≠ x) := by
  obtain ⟨h0i, hiLen, hlow, hhigh⟩ :=
    bisectLeftLoop_spec a x hsorted a.length 0 a.length (by omega) (by omega)
      (le_refl _) (fun k hk _ => absurd hk (by omega))
      (fun k hk hkl => absurd hkl (by omega))
  rw [show bisectLeftLoop a x 0 a.length = bisect_left a x from rfl]
    at h0i hiLen hlow hhigh
  have htake : ∀ e ∈ a.take (bisect_left a x), e < x := by
    intro e he
    obtain ⟨k, hm, hke⟩ := List.mem_take_iff_getElem.mp he
    have hki : k < bisect_left a x := lt_of_lt_of_le hm (min_le_left _ _)
    have hkl : k < a.length := lt_of_lt_of_le hm (min_le_right _ _)
    have := hlow k hki hkl
    rw [List.get_eq_getElem] at this
    rw [← hke]
    exact this
  have hdrop : ∀ e ∈ a.drop (bisect_left a x), x ≤ e := by
    intro e he
    obtain ⟨k, hk, hke⟩ := List.mem_iff_getElem.mp he
    rw [List.getElem_drop] at hke
    have hkl : bisect_left a x + k < a.length := by
      have := hk
      simp only [List.length_drop] at this
      omega
    have := hhigh (bisect_left a x + k) (by omega) hkl
    rw [List.get_eq_getElem] at this
    rw [← hke]
    exact this
  refine ⟨hiLen, htake, hdrop, ?_, ?_, ?_⟩
  · intro j hj hjtake hjdrop
    rcases Nat.lt_trichotomy j (bisect_left a x) with hlt | heq | hgt
    · exfalso
      have hjl : j < a.length := by omega
      have hmem : a[j] ∈ a.drop j := by
        refine List.mem_iff_getElem.mpr ⟨0, ?_, ?_⟩
        · simp only [List.length_drop]
          omega
        · simp [List.getElem_drop]
      have h1 := hjdrop _ hmem
      have h2 := hlow j hlt hjl
      rw [List.get_eq_getElem] at h2
      exact absurd h1 (not_le.mpr h2)
    · exact heq
    · exfalso
      have hil : bisect_left a x < a.length := by omega
      have hmem : a[bisect_left a x] ∈ a.take j := by
        refine List.mem_take_iff_getElem.mpr ⟨bisect_left a x, ?_, rfl⟩
        exact lt_min hgt hil
      have h1 := hjtake _ hmem
      have h2 := hhigh (bisect_left a x) (le_refl _) hil
      rw [List.get_eq_getElem] at h2
      exact absurd h1 (not_lt.mpr h2)
  · unfold insort_left
    rw [insertIdx_eq_take_append x _ a hiLen]
    rw [List.Sorted, List.pairwise_append]
    refine ⟨(hsorted.sublist (List.take_sublist _ _) : _), ?_, ?_⟩
    · rw [List.pairwise_cons]
      refine ⟨hdrop, hsorted.sublist (List.drop_sublist _ _)⟩
    · intro e he b hb
      rcases List.mem_cons.mp hb with hbx | hbd
      · subst hbx
        exact le_of_lt (htake e he)
      · exact le_of_lt (lt_of_lt_of_le (htake e he) (hdrop b hbd))
  · intro e he
    exact ne_of_lt (htake e he)

/-- Witness for C10 on the sorted list `[1, 2, 2, 3]` with `x = 2`:
`bisect_left` returns `1`, to the left of both existing `2`s, and
insertion keeps the list sorted. -/
theorem bisect_left_partition_witness :
    List.Sorted (· ≤ ·) ([1, 2, 2, 3] : List ℤ) ∧
    bisect_left ([1, 2, 2, 3] : List ℤ) 2 = 1 ∧
    (∀ e ∈ ([1, 2, 2, 3] : List ℤ).take (bisect_left ([1, 2, 2, 3] : List ℤ) 2), e < 2) ∧
    List.Sorted (· ≤ ·) (insort_left ([1, 2, 2, 3] : List ℤ) 2) := by
  have hs : List.Sorted (· ≤ ·) ([1, 2, 2, 3] : List ℤ) := by decide
  have h := bisect_left_partition ([1, 2, 2, 3] : List ℤ) 2 hs
  refine ⟨hs, ?_, h.2.1, h.2.2.2.2.1⟩
  show bisectLeftLoop ([1, 2, 2, 3] : List ℤ) 2 0 4 = 1
  rw [bisectLeftLoop]
  norm_num
  rw [bisectLeftLoop]
  norm_num
  rw [bisectLeftLoop]
  norm_num
  rw [bisectLeftLoop]
  norm_num

end Tergite
